import Mathlib

/-
Verification of the miniature block-cipher toolkit: the S-DES cipher
(src/01_des/des.cpp), the simplified-AES cipher (src/02_aes/AES.cpp) and the
shared modular-exponentiation primitive (src/04.2_diffie_hellman/diffie_hellman.cpp),
shallowly embedded in Lean.  Bit vectors are lists of natural numbers (the C++
code stores bits in `vector<int>`), 8/16-bit machine integers are natural
numbers (all the arithmetic performed on them stays below the wrap-around
threshold except where noted), and out-of-range vector indexing is modelled
with `List.getD` and default value 0.
-/

namespace SDES

/-- Permutation table P10 from des.cpp. -/
def P10 : List Nat := [3, 5, 2, 7, 4, 10, 1, 9, 8, 6]

/-- Permutation table P8 from des.cpp. -/
def P8 : List Nat := [6, 3, 7, 4, 8, 5, 10, 9]

/-- Permutation table P4 from des.cpp. -/
def P4 : List Nat := [2, 4, 3, 1]

/-- Initial permutation table from des.cpp. -/
def IP : List Nat := [2, 6, 3, 1, 4, 8, 5, 7]

/-- Inverse initial permutation table from des.cpp. -/
def IP_INV : List Nat := [4, 1, 3, 5, 7, 2, 8, 6]

/-- Expansion permutation table from des.cpp. -/
def E_P : List Nat := [4, 1, 2, 3, 2, 3, 4, 1]

/-- S-box S0 from des.cpp. -/
def S0 : List (List Nat) := [[1, 0, 3, 2], [3, 2, 1, 0], [0, 2, 1, 3], [3, 1, 3, 2]]

/-- S-box S1 from des.cpp. -/
def S1 : List (List Nat) := [[0, 1, 2, 3], [2, 0, 1, 3], [3, 0, 1, 0], [2, 1, 0, 3]]

/-- `permute` from des.cpp: result[i] = arr[perm[i] - 1]; the output length is
the table length (the C++ caller passes the table size). -/
def permute (arr : List Nat) (perm : List Nat) : List Nat :=
  perm.map (fun p => arr.getD (p - 1) 0)

/-- `leftShift` from des.cpp: circular left shift, shifted[i] = bits[(i + shifts) % size]. -/
def leftShift (bits : List Nat) (shifts : Nat) : List Nat :=
  (List.range bits.length).map (fun i => bits.getD ((i + shifts) % bits.length) 0)

/-- `XOR` from des.cpp: element-wise xor of two equal-length bit vectors. -/
def XOR (a b : List Nat) : List Nat :=
  List.zipWith (fun x y => x ^^^ y) a b

/-- `intToBin` from des.cpp: fills the bit vector from the last position with
val & 1, shifting val right each step (most-significant bit first). -/
def intToBin (val : Nat) : Nat → List Nat
  | 0 => []
  | size + 1 => intToBin (val >>> 1) size ++ [val &&& 1]

/-- `sBox` from des.cpp: row = (input[0] << 1) | input[3],
col = (input[1] << 1) | input[2], and the table value is emitted as 2 bits. -/
def sBox (input : List Nat) (sMatrix : List (List Nat)) : List Nat :=
  let row := (input.getD 0 0 <<< 1) ||| input.getD 3 0
  let col := (input.getD 1 0 <<< 1) ||| input.getD 2 0
  intToBin ((sMatrix.getD row []).getD col 0) 2

/-- `generateKeys` from des.cpp: P10, split into 5-bit halves, LS-1 on each half
for K1, then LS-2 on the already shifted halves for K2, both through P8. -/
def generateKeys (key : List Nat) : List Nat × List Nat :=
  let p10 := permute key P10
  let left1 := leftShift (p10.take 5) 1
  let right1 := leftShift (p10.drop 5) 1
  let k1 := permute (left1 ++ right1) P8
  let left2 := leftShift left1 2
  let right2 := leftShift right1 2
  let k2 := permute (left2 ++ right2) P8
  (k1, k2)

/-- `functionF` from des.cpp: expand the right half through E/P, xor with the
round key, S-boxes, P4, xor with the left half, and pair with the unchanged
right half. -/
def functionF (left right key : List Nat) : List Nat :=
  let temp := XOR (permute right E_P) key
  let s0out := sBox (temp.take 4) S0
  let s1out := sBox (temp.drop 4) S1
  let combined := permute (s0out ++ s1out) P4
  XOR left combined ++ right

/-- `sdes` from des.cpp: key schedule (swapped when decrypting), IP, two Feistel
rounds with a halves swap in between, then the inverse permutation. -/
def sdes (input key : List Nat) (decrypt : Bool) : List Nat :=
  let ks := generateKeys key
  let k1 := if decrypt then ks.2 else ks.1
  let k2 := if decrypt then ks.1 else ks.2
  let ip := permute input IP
  let f1 := functionF (ip.take 4) (ip.drop 4) k1
  let f2 := functionF (f1.drop 4) (f1.take 4) k2
  permute f2 IP_INV

/-- `parseBits` from des.cpp: returns the empty vector when the string does not
have exactly the expected length or contains a character other than 0 or 1,
otherwise the digits as a bit vector. -/
def parseBits (s : List Char) (expected : Nat) : List Nat :=
  if s.length = expected ∧ s.all (fun c => c = '0' ∨ c = '1') then
    s.map (fun c => c.toNat - '0'.toNat)
  else []

end SDES

namespace SAES

/-- The forward 4-bit S-box of AES.cpp. -/
def sBox : List Nat := [0x9, 0x4, 0xA, 0xB, 0xD, 0x1, 0x8, 0x5, 0x6, 0x2, 0x0, 0x3, 0xC, 0xE, 0xF, 0x7]

/-- The inverse 4-bit S-box of AES.cpp. -/
def sBoxI : List Nat := [0xA, 0x5, 0x9, 0xB, 0x1, 0x7, 0x8, 0xF, 0x6, 0x0, 0x2, 0x3, 0xC, 0x4, 0xD, 0xE]

/-- `SimplifiedAES::subWord`: the S-box applied to each nibble of a byte. -/
def subWord (word : Nat) : Nat :=
  (sBox.getD (word >>> 4) 0 <<< 4) ||| sBox.getD (word &&& 0x0F) 0

/-- `SimplifiedAES::rotWord`: swaps the two nibbles of a byte. -/
def rotWord (word : Nat) : Nat :=
  ((word &&& 0x0F) <<< 4) ||| ((word &&& 0xF0) >>> 4)

/-- `SimplifiedAES::intToState`: a 16-bit word as four nibbles in the order
[bits 15-12, bits 7-4, bits 11-8, bits 3-0]. -/
def intToState (n : Nat) : List Nat :=
  [(n >>> 12) &&& 0xF, (n >>> 4) &&& 0xF, (n >>> 8) &&& 0xF, n &&& 0xF]

/-- `SimplifiedAES::stateToInt`: inverse packing of `intToState`. -/
def stateToInt (m : List Nat) : Nat :=
  (m.getD 0 0 <<< 12) + (m.getD 2 0 <<< 8) + (m.getD 1 0 <<< 4) + m.getD 3 0

/-- `SimplifiedAES::keyExpansion` from AES.cpp. -/
def keyExpansion (key : Nat) : List Nat × List Nat × List Nat :=
  let Rcon1 := 0x80
  let Rcon2 := 0x30
  let w0 := (key &&& 0xFF00) >>> 8
  let w1 := key &&& 0x00FF
  let w2 := w0 ^^^ (subWord (rotWord w1) ^^^ Rcon1)
  let w3 := w2 ^^^ w1
  let w4 := w2 ^^^ (subWord (rotWord w3) ^^^ Rcon2)
  let w5 := w4 ^^^ w3
  (intToState ((w0 <<< 8) + w1), intToState ((w2 <<< 8) + w3), intToState ((w4 <<< 8) + w5))

/-- The loop body of `SimplifiedAES::gfMult`: while b is nonzero, conditionally
accumulate a into the product, shift a left reducing by 0b10011 on overflow of
bit 4, and halve b.  The loop runs at most bit-length of b times, so a fuel
argument initialised to b makes the recursion structural. -/
def gfLoop : Nat → Nat → Nat → Nat → Nat
  | 0, product, _, _ => product
  | fuel + 1, product, a, b =>
    if b = 0 then product
    else
      gfLoop fuel (if b &&& 1 = 1 then product ^^^ a else product)
        (if (a <<< 1) &&& (1 <<< 4) ≠ 0 then (a <<< 1) ^^^ 0b10011 else a <<< 1) (b >>> 1)

/-- `SimplifiedAES::gfMult`: both operands masked to 4 bits, then shift-and-reduce. -/
def gfMult (a b : Nat) : Nat :=
  gfLoop (b &&& 0x0F) 0 (a &&& 0x0F) (b &&& 0x0F)

/-- `SimplifiedAES::addRoundKey`: nibble-wise xor of two states (i = 0..3). -/
def addRoundKey (s1 s2 : List Nat) : List Nat :=
  [s1.getD 0 0 ^^^ s2.getD 0 0, s1.getD 1 0 ^^^ s2.getD 1 0,
   s1.getD 2 0 ^^^ s2.getD 2 0, s1.getD 3 0 ^^^ s2.getD 3 0]

/-- `SimplifiedAES::subNibbles`: table lookup on each of the four nibbles. -/
def subNibbles (sbox : List Nat) (state : List Nat) : List Nat :=
  [sbox.getD (state.getD 0 0) 0, sbox.getD (state.getD 1 0) 0,
   sbox.getD (state.getD 2 0) 0, sbox.getD (state.getD 3 0) 0]

/-- `SimplifiedAES::shiftRows`: swaps the nibbles at positions 2 and 3. -/
def shiftRows (state : List Nat) : List Nat :=
  [state.getD 0 0, state.getD 1 0, state.getD 3 0, state.getD 2 0]

/-- `SimplifiedAES::mixColumns` from AES.cpp. -/
def mixColumns (state : List Nat) : List Nat :=
  [state.getD 0 0 ^^^ gfMult 4 (state.getD 2 0),
   state.getD 1 0 ^^^ gfMult 4 (state.getD 3 0),
   state.getD 2 0 ^^^ gfMult 4 (state.getD 0 0),
   state.getD 3 0 ^^^ gfMult 4 (state.getD 1 0)]

/-- `SimplifiedAES::inverseMixColumns` from AES.cpp. -/
def inverseMixColumns (state : List Nat) : List Nat :=
  [gfMult 9 (state.getD 0 0) ^^^ gfMult 2 (state.getD 2 0),
   gfMult 9 (state.getD 1 0) ^^^ gfMult 2 (state.getD 3 0),
   gfMult 9 (state.getD 2 0) ^^^ gfMult 2 (state.getD 0 0),
   gfMult 9 (state.getD 3 0) ^^^ gfMult 2 (state.getD 1 0)]

/-- The `SimplifiedAES` engine: the three round keys computed at construction. -/
structure SimplifiedAES where
  preRoundKey : List Nat
  round1Key : List Nat
  round2Key : List Nat

/-- The `SimplifiedAES(uint16_t key)` constructor: runs the key expansion. -/
def SimplifiedAES.ofKey (key : Nat) : SimplifiedAES :=
  ⟨(keyExpansion key).1, (keyExpansion key).2.1, (keyExpansion key).2.2⟩

/-- `SimplifiedAES::Encrypt` from AES.cpp. -/
def SimplifiedAES.Encrypt (A : SimplifiedAES) (plaintext : Nat) : Nat :=
  let state0 := addRoundKey A.preRoundKey (intToState plaintext)
  let state1 := mixColumns (shiftRows (subNibbles sBox state0))
  let state2 := addRoundKey A.round1Key state1
  let state3 := shiftRows (subNibbles sBox state2)
  let state4 := addRoundKey A.round2Key state3
  stateToInt state4

/-- `SimplifiedAES::Decrypt` from AES.cpp. -/
def SimplifiedAES.Decrypt (A : SimplifiedAES) (ciphertext : Nat) : Nat :=
  let state0 := addRoundKey A.round2Key (intToState ciphertext)
  let state1 := subNibbles sBoxI (shiftRows state0)
  let state2 := inverseMixColumns (addRoundKey A.round1Key state1)
  let state3 := subNibbles sBoxI (shiftRows state2)
  let state4 := addRoundKey A.preRoundKey state3
  stateToInt state4

/-- Specification-side carry-less (GF(2)) polynomial product of two 4-bit
values: the xor of the shifts of `a` selected by the bits of `b`. -/
def clMul (a b : Nat) : Nat :=
  (List.range 4).foldl (fun acc i => if b.testBit i then acc ^^^ (a <<< i) else acc) 0

/-- Specification-side polynomial remainder modulo x^4 + x + 1 (0b10011) of a
GF(2) polynomial of degree at most 7: eliminate the bits 7 down to 4. -/
def polyReduce (p : Nat) : Nat :=
  [7, 6, 5, 4].foldl (fun acc i => if acc.testBit i then acc ^^^ (0b10011 <<< (i - 4)) else acc) p

/-- Specification-side product of (a mod 16) and (b mod 16) in GF(2^4) with
reduction polynomial x^4 + x + 1: carry-less multiplication followed by
polynomial reduction. -/
def gfMultSpec (a b : Nat) : Nat := polyReduce (clMul (a % 16) (b % 16))

/-- Specification-side key expansion as stated by the spec, written over the
high byte key / 256 and low byte key % 256: w2 = w0 xor (sub(rot(w1)) xor 0x80),
w3 = w2 xor w1, w4 = w2 xor (sub(rot(w3)) xor 0x30), w5 = w4 xor w3, returning
the pre-round key w0 ‖ w1 and round keys w2 ‖ w3 and w4 ‖ w5 as states. -/
def keyExpansionSpec (key : Nat) : List Nat × List Nat × List Nat :=
  let w0 := key / 256
  let w1 := key % 256
  let w2 := w0 ^^^ (subWord (rotWord w1) ^^^ 0x80)
  let w3 := w2 ^^^ w1
  let w4 := w2 ^^^ (subWord (rotWord w3) ^^^ 0x30)
  let w5 := w4 ^^^ w3
  (intToState (w0 * 256 + w1), intToState (w2 * 256 + w3), intToState (w4 * 256 + w5))

/-- A well-formed state: four entries, every position (default 0 beyond the
length) a nibble. -/
def Nib (s : List Nat) : Prop := s.length = 4 ∧ ∀ i, s.getD i 0 < 16

end SAES

namespace DH

/-- The while loop of `power` from diffie_hellman.cpp: result accumulates
base^bit whenever the current exponent bit is set, base is squared mod modulus
each iteration, and the exponent is halved.  The loop runs at most bit-length
of exp times, so a fuel argument initialised to exp makes the recursion
structural. -/
def powerAux : Nat → Nat → Nat → Nat → Nat → Nat
  | 0, result, _, _, _ => result
  | fuel + 1, result, base, exp, modulus =>
    if exp = 0 then result
    else
      powerAux fuel (if exp % 2 = 1 then result * base % modulus else result)
        (base * base % modulus) (exp / 2) modulus

/-- `power` from diffie_hellman.cpp: result = 1, base %= modulus, then the
square-and-multiply loop. -/
def power (base exp modulus : Nat) : Nat :=
  powerAux exp 1 (base % modulus) exp modulus

end DH

namespace SDES

lemma exists_eight (l : List Nat) (hl : l.length = 8) :
    ∃ a b c d e f g h, l = [a, b, c, d, e, f, g, h] := by
  rcases l with _ | ⟨a, l⟩
  · simp at hl
  rcases l with _ | ⟨b, l⟩
  · simp at hl
  rcases l with _ | ⟨c, l⟩
  · simp at hl
  rcases l with _ | ⟨d, l⟩
  · simp at hl
  rcases l with _ | ⟨e, l⟩
  · simp at hl
  rcases l with _ | ⟨f, l⟩
  · simp at hl
  rcases l with _ | ⟨g, l⟩
  · simp at hl
  rcases l with _ | ⟨h, l⟩
  · simp at hl
  rcases l with _ | ⟨x, l⟩
  · exact ⟨a, b, c, d, e, f, g, h, rfl⟩
  · simp at hl

lemma exists_ten (l : List Nat) (hl : l.length = 10) :
    ∃ a b c d e f g h i j, l = [a, b, c, d, e, f, g, h, i, j] := by
  rcases l with _ | ⟨a, l⟩
  · simp at hl
  rcases l with _ | ⟨b, l⟩
  · simp at hl
  obtain ⟨c, d, e, f, g, h, i, j, rfl⟩ := exists_eight l (by simpa using hl)
  exact ⟨a, b, c, d, e, f, g, h, i, j, rfl⟩

end SDES

/-- C1: Cipher A round-trip.  For every 8-bit block and every 10-bit key with
all entries 0 or 1, decrypting the encryption returns the original block:
sdes (sdes block key false) key true = block. -/
theorem SDES.sdes_roundtrip (block key : List Nat)
    (hb : block.length = 8) (hk : key.length = 10)
    (hb01 : ∀ x ∈ block, x = 0 ∨ x = 1) (hk01 : ∀ x ∈ key, x = 0 ∨ x = 1) :
    sdes (sdes block key false) key true = block := by
  obtain ⟨b0, b1, b2, b3, b4, b5, b6, b7, rfl⟩ := exists_eight block hb
  obtain ⟨k0, k1, k2, k3, k4, k5, k6, k7, k8, k9, rfl⟩ := exists_ten key hk
  simp [sdes, generateKeys, functionF, permute, leftShift, XOR, sBox, intToBin,
    P10, P8, P4, IP, IP_INV, E_P, Nat.xor_cancel_right, Nat.xor_cancel_left]

/-- Witness for C1: the round-trip theorem applied to the concrete block
10100101 and key 1010000010. -/
theorem SDES.sdes_roundtrip_witness :
    sdes (sdes [1, 0, 1, 0, 0, 1, 0, 1] [1, 0, 1, 0, 0, 0, 0, 0, 1, 0] false)
      [1, 0, 1, 0, 0, 0, 0, 0, 1, 0] true = [1, 0, 1, 0, 0, 1, 0, 1] :=
  SDES.sdes_roundtrip [1, 0, 1, 0, 0, 1, 0, 1] [1, 0, 1, 0, 0, 0, 0, 0, 1, 0]
    (by decide) (by decide) (by decide) (by decide)

/-- C3: Cipher A key schedule.  For every 10-bit key, round key 1 is P8 applied
to the concatenation of the two 5-bit halves of P10(key) each circularly
left-shifted by 1, and round key 2 is P8 applied to the same halves at a
cumulative circular left shift of 3 (the further shift of 2 acts on the
already-shifted halves, not on a restart from the unshifted halves). -/
theorem SDES.generateKeys_cumulative_shift (key : List Nat) (hk : key.length = 10) :
    generateKeys key =
      (permute (leftShift ((permute key P10).take 5) 1 ++
          leftShift ((permute key P10).drop 5) 1) P8,
       permute (leftShift ((permute key P10).take 5) 3 ++
          leftShift ((permute key P10).drop 5) 3) P8) := by
  simp [generateKeys, permute, leftShift, P10, P8, List.range_succ]

/-- Witness for C3: the key-schedule theorem applied to the concrete key
1010000010. -/
theorem SDES.generateKeys_cumulative_shift_witness :
    generateKeys [1, 0, 1, 0, 0, 0, 0, 0, 1, 0] =
      (permute (leftShift ((permute [1, 0, 1, 0, 0, 0, 0, 0, 1, 0] P10).take 5) 1 ++
          leftShift ((permute [1, 0, 1, 0, 0, 0, 0, 0, 1, 0] P10).drop 5) 1) P8,
       permute (leftShift ((permute [1, 0, 1, 0, 0, 0, 0, 0, 1, 0] P10).take 5) 3 ++
          leftShift ((permute [1, 0, 1, 0, 0, 0, 0, 0, 1, 0] P10).drop 5) 3) P8) :=
  SDES.generateKeys_cumulative_shift [1, 0, 1, 0, 0, 0, 0, 0, 1, 0] (by decide)

namespace SAES

lemma exists_four (l : List Nat) (hl : l.length = 4) :
    ∃ a b c d, l = [a, b, c, d] := by
  rcases l with _ | ⟨a, l⟩
  · simp at hl
  rcases l with _ | ⟨b, l⟩
  · simp at hl
  rcases l with _ | ⟨c, l⟩
  · simp at hl
  rcases l with _ | ⟨d, l⟩
  · simp at hl
  rcases l with _ | ⟨x, l⟩
  · exact ⟨a, b, c, d, rfl⟩
  · simp at hl

lemma table_getD_lt (L : List Nat) (hL : ∀ x ∈ L, x < 16) (i : Nat) : L.getD i 0 < 16 := by
  rcases h : L[i]? with _ | x
  · simp [List.getD, h]
  · have hx : x ∈ L := List.getElem?_mem h
    simpa [List.getD, h] using hL x hx

lemma xor_lt_16 {a b : Nat} (ha : a < 16) (hb : b < 16) : a ^^^ b < 16 :=
  Nat.xor_lt_two_pow (n := 4) ha hb

lemma and_15_eq_mod (x : Nat) : x &&& 15 = x % 16 := by
  simpa using Nat.and_pow_two_sub_one_eq_mod x 4

lemma gfMult_mask (a b : Nat) : gfMult a b = gfMult (a &&& 15) (b &&& 15) := by
  simp [gfMult, Nat.and_assoc]

lemma gfMult_lt (a b : Nat) : gfMult a b < 16 := by
  rw [gfMult_mask]
  have h : ∀ x y : Fin 16, gfMult x.val y.val < 16 := by decide
  exact h ⟨a &&& 15, Nat.lt_succ_of_le Nat.and_le_right⟩
    ⟨b &&& 15, Nat.lt_succ_of_le Nat.and_le_right⟩

lemma nib_intToState (n : Nat) : Nib (intToState n) := by
  refine ⟨rfl, fun i => ?_⟩
  rcases i with _ | _ | _ | _ | i
  · exact Nat.lt_succ_of_le Nat.and_le_right
  · exact Nat.lt_succ_of_le Nat.and_le_right
  · exact Nat.lt_succ_of_le Nat.and_le_right
  · exact Nat.lt_succ_of_le Nat.and_le_right
  · exact show (0 : Nat) < 16 by decide

lemma nib_addRoundKey {k s : List Nat} (hk : ∀ i, k.getD i 0 < 16) (hs : Nib s) :
    Nib (addRoundKey k s) := by
  refine ⟨rfl, fun i => ?_⟩
  rcases i with _ | _ | _ | _ | i
  · exact xor_lt_16 (hk 0) (hs.2 0)
  · exact xor_lt_16 (hk 1) (hs.2 1)
  · exact xor_lt_16 (hk 2) (hs.2 2)
  · exact xor_lt_16 (hk 3) (hs.2 3)
  · exact show (0 : Nat) < 16 by decide

lemma nib_subNibbles {box : List Nat} (hbox : ∀ x ∈ box, x < 16) (s : List Nat) :
    Nib (subNibbles box s) := by
  refine ⟨rfl, fun i => ?_⟩
  rcases i with _ | _ | _ | _ | i
  · exact table_getD_lt box hbox _
  · exact table_getD_lt box hbox _
  · exact table_getD_lt box hbox _
  · exact table_getD_lt box hbox _
  · exact show (0 : Nat) < 16 by decide

lemma nib_shiftRows {s : List Nat} (hs : Nib s) : Nib (shiftRows s) := by
  refine ⟨rfl, fun i => ?_⟩
  rcases i with _ | _ | _ | _ | i
  · exact hs.2 0
  · exact hs.2 1
  · exact hs.2 3
  · exact hs.2 2
  · exact show (0 : Nat) < 16 by decide

lemma nib_mixColumns {s : List Nat} (hs : Nib s) : Nib (mixColumns s) := by
  refine ⟨rfl, fun i => ?_⟩
  rcases i with _ | _ | _ | _ | i
  · exact xor_lt_16 (hs.2 0) (gfMult_lt _ _)
  · exact xor_lt_16 (hs.2 1) (gfMult_lt _ _)
  · exact xor_lt_16 (hs.2 2) (gfMult_lt _ _)
  · exact xor_lt_16 (hs.2 3) (gfMult_lt _ _)
  · exact show (0 : Nat) < 16 by decide

lemma sbox_all_lt : ∀ x ∈ sBox, x < 16 := by decide

lemma sbox_inv {x : Nat} (hx : x < 16) : sBoxI.getD (sBox.getD x 0) 0 = x := by
  have h : ∀ y : Fin 16, sBoxI.getD (sBox.getD y.val 0) 0 = y.val := by decide
  exact h ⟨x, hx⟩

lemma gf_mix_component {x y : Nat} (hx : x < 16) (hy : y < 16) :
    gfMult 9 (x ^^^ gfMult 4 y) ^^^ gfMult 2 (y ^^^ gfMult 4 x) = x := by
  have h : ∀ a b : Fin 16,
      gfMult 9 (a.val ^^^ gfMult 4 b.val) ^^^ gfMult 2 (b.val ^^^ gfMult 4 a.val) = a.val := by
    decide
  exact h ⟨x, hx⟩ ⟨y, hy⟩

lemma ark_cancel {k s : List Nat} (hs : s.length = 4) :
    addRoundKey k (addRoundKey k s) = s := by
  obtain ⟨a, b, c, d, rfl⟩ := exists_four s hs
  simp [addRoundKey, Nat.xor_cancel_left]

lemma sub_shift_inv {s : List Nat} (hs : Nib s) :
    subNibbles sBoxI (shiftRows (shiftRows (subNibbles sBox s))) = s := by
  obtain ⟨a, b, c, d, rfl⟩ := exists_four s hs.1
  have h0 : a < 16 := hs.2 0
  have h1 : b < 16 := hs.2 1
  have h2 : c < 16 := hs.2 2
  have h3 : d < 16 := hs.2 3
  show [sBoxI.getD (sBox.getD a 0) 0, sBoxI.getD (sBox.getD b 0) 0,
        sBoxI.getD (sBox.getD c 0) 0, sBoxI.getD (sBox.getD d 0) 0] = [a, b, c, d]
  rw [sbox_inv h0, sbox_inv h1, sbox_inv h2, sbox_inv h3]

lemma mc_inv {s : List Nat} (hs : Nib s) :
    inverseMixColumns (mixColumns s) = s := by
  obtain ⟨a, b, c, d, rfl⟩ := exists_four s hs.1
  have h0 : a < 16 := hs.2 0
  have h1 : b < 16 := hs.2 1
  have h2 : c < 16 := hs.2 2
  have h3 : d < 16 := hs.2 3
  show [gfMult 9 (a ^^^ gfMult 4 c) ^^^ gfMult 2 (c ^^^ gfMult 4 a),
        gfMult 9 (b ^^^ gfMult 4 d) ^^^ gfMult 2 (d ^^^ gfMult 4 b),
        gfMult 9 (c ^^^ gfMult 4 a) ^^^ gfMult 2 (a ^^^ gfMult 4 c),
        gfMult 9 (d ^^^ gfMult 4 b) ^^^ gfMult 2 (b ^^^ gfMult 4 d)] = [a, b, c, d]
  rw [gf_mix_component h0 h2, gf_mix_component h1 h3, gf_mix_component h2 h0,
    gf_mix_component h3 h1]

lemma its_sti {s : List Nat} (hs : Nib s) : intToState (stateToInt s) = s := by
  obtain ⟨a, b, c, d, rfl⟩ := exists_four s hs.1
  have h0 : a < 16 := hs.2 0
  have h1 : b < 16 := hs.2 1
  have h2 : c < 16 := hs.2 2
  have h3 : d < 16 := hs.2 3
  show [(((a <<< 12) + (c <<< 8) + (b <<< 4) + d) >>> 12) &&& 15,
        (((a <<< 12) + (c <<< 8) + (b <<< 4) + d) >>> 4) &&& 15,
        (((a <<< 12) + (c <<< 8) + (b <<< 4) + d) >>> 8) &&& 15,
        ((a <<< 12) + (c <<< 8) + (b <<< 4) + d) &&& 15] = [a, b, c, d]
  simp only [and_15_eq_mod, Nat.shiftRight_eq_div_pow, Nat.shiftLeft_eq, List.cons.injEq]
  norm_num
  omega

lemma sti_its {n : Nat} (hn : n < 65536) : stateToInt (intToState n) = n := by
  show (((n >>> 12) &&& 15) <<< 12) + (((n >>> 8) &&& 15) <<< 8) +
      (((n >>> 4) &&& 15) <<< 4) + (n &&& 15) = n
  simp only [and_15_eq_mod, Nat.shiftRight_eq_div_pow, Nat.shiftLeft_eq]
  norm_num
  omega

lemma nib_keys (key : Nat) :
    (∀ i, (keyExpansion key).1.getD i 0 < 16) ∧
    (∀ i, (keyExpansion key).2.1.getD i 0 < 16) ∧
    (∀ i, (keyExpansion key).2.2.getD i 0 < 16) :=
  ⟨(nib_intToState _).2, (nib_intToState _).2, (nib_intToState _).2⟩

end SAES

/-- C2: Cipher B round-trip.  For every 16-bit key and every 16-bit plaintext,
the engine constructed from the key maps the plaintext back to itself under
Decrypt after Encrypt; in particular for key 0x4AF5 and plaintext 0xD728 the
decryption of the ciphertext is exactly 0xD728. -/
theorem SAES.encrypt_decrypt_roundtrip :
    (∀ key plaintext : Nat, key < 65536 → plaintext < 65536 →
      (SimplifiedAES.ofKey key).Decrypt ((SimplifiedAES.ofKey key).Encrypt plaintext) =
        plaintext) ∧
    (SimplifiedAES.ofKey 0x4AF5).Decrypt ((SimplifiedAES.ofKey 0x4AF5).Encrypt 0xD728) =
      0xD728 := by
  have main : ∀ key plaintext : Nat, key < 65536 → plaintext < 65536 →
      (SimplifiedAES.ofKey key).Decrypt ((SimplifiedAES.ofKey key).Encrypt plaintext) =
        plaintext := by
    intro key plaintext hkey hp
    obtain ⟨hK0, hK1, hK2⟩ := nib_keys key
    simp only [SimplifiedAES.Decrypt, SimplifiedAES.Encrypt, SimplifiedAES.ofKey]
    set k0 := (keyExpansion key).1 with hk0
    set k1 := (keyExpansion key).2.1 with hk1
    set k2 := (keyExpansion key).2.2 with hk2
    set t0 := intToState plaintext with ht0
    set s0 := addRoundKey k0 t0 with hs0
    set u1 := subNibbles sBox s0 with hu1
    set u2 := shiftRows u1 with hu2
    set s1 := mixColumns u2 with hs1
    set s2 := addRoundKey k1 s1 with hs2
    set u3 := subNibbles sBox s2 with hu3
    set u4 := shiftRows u3 with hu4
    set s4 := addRoundKey k2 u4 with hs4
    have nt0 : Nib t0 := by rw [ht0]; exact nib_intToState plaintext
    have ns0 : Nib s0 := by rw [hs0]; exact nib_addRoundKey hK0 nt0
    have nu1 : Nib u1 := by rw [hu1]; exact nib_subNibbles sbox_all_lt s0
    have nu2 : Nib u2 := by rw [hu2]; exact nib_shiftRows nu1
    have ns1 : Nib s1 := by rw [hs1]; exact nib_mixColumns nu2
    have ns2 : Nib s2 := by rw [hs2]; exact nib_addRoundKey hK1 ns1
    have nu3 : Nib u3 := by rw [hu3]; exact nib_subNibbles sbox_all_lt s2
    have nu4 : Nib u4 := by rw [hu4]; exact nib_shiftRows nu3
    have ns4 : Nib s4 := by rw [hs4]; exact nib_addRoundKey hK2 nu4
    rw [its_sti ns4, hs4, ark_cancel nu4.1, hu4, hu3, sub_shift_inv ns2, hs2,
      ark_cancel ns1.1, hs1, mc_inv nu2, hu2, hu1, sub_shift_inv ns0, hs0,
      ark_cancel nt0.1, ht0]
    exact sti_its hp
  exact ⟨main, main 0x4AF5 0xD728 (by decide) (by decide)⟩

/-- Witness for C2: the round-trip applied to the concrete key 0x4AF5 and
plaintext 0xD728 of the source's built-in self-check. -/
theorem SAES.encrypt_decrypt_roundtrip_witness :
    (SimplifiedAES.ofKey 0x4AF5).Decrypt ((SimplifiedAES.ofKey 0x4AF5).Encrypt 0xD728) =
      0xD728 :=
  SAES.encrypt_decrypt_roundtrip.1 0x4AF5 0xD728 (by decide) (by decide)

namespace SAES

lemma and_shiftRight_distrib (x y k : Nat) : (x &&& y) >>> k = (x >>> k) &&& (y >>> k) := by
  apply Nat.eq_of_testBit_eq
  intro i
  simp [Nat.testBit_and]

lemma highByte_eq (key : Nat) (hk : key < 65536) : (key &&& 0xFF00) >>> 8 = key / 256 := by
  rw [and_shiftRight_distrib]
  have h1 : (0xFF00 : Nat) >>> 8 = 255 := rfl
  have h2 : (key >>> 8) &&& 255 = (key >>> 8) % 256 := by
    simpa using Nat.and_pow_two_sub_one_eq_mod (key >>> 8) 8
  have h3 : key >>> 8 = key / 256 := by
    rw [Nat.shiftRight_eq_div_pow]
  rw [h1, h2, h3]
  omega

lemma lowByte_eq (key : Nat) : key &&& 0x00FF = key % 256 := by
  simpa using Nat.and_pow_two_sub_one_eq_mod key 8

end SAES

set_option maxRecDepth 4000 in
/-- C4: Cipher B key expansion.  For every 16-bit key, the key expansion of the
source agrees with the byte-level specification built from the high byte
key / 256 and the low byte key % 256 using w2 = w0 xor (subWord (rotWord w1)
xor 0x80), w3 = w2 xor w1, w4 = w2 xor (subWord (rotWord w3) xor 0x30),
w5 = w4 xor w3, the returned keys being the states of w0 ‖ w1, w2 ‖ w3 and
w4 ‖ w5; moreover on bytes, rotWord swaps the two 4-bit halves and subWord
applies the 4-bit S-box to each nibble. -/
theorem SAES.keyExpansion_matches_spec :
    (∀ key : Nat, key < 65536 → keyExpansion key = keyExpansionSpec key) ∧
    (∀ b : Nat, b < 256 → rotWord b = (b % 16) * 16 + b / 16) ∧
    (∀ b : Nat, b < 256 → subWord b = sBox.getD (b / 16) 0 * 16 + sBox.getD (b % 16) 0) := by
  refine ⟨fun key hk => ?_, fun b hb => ?_, fun b hb => ?_⟩
  · simp only [keyExpansion, keyExpansionSpec, highByte_eq key hk, lowByte_eq key,
      Nat.shiftLeft_eq]
  · have h : ∀ y : Fin 256, rotWord y.val = (y.val % 16) * 16 + y.val / 16 := by decide
    exact h ⟨b, hb⟩
  · have h : ∀ y : Fin 256,
        subWord y.val = sBox.getD (y.val / 16) 0 * 16 + sBox.getD (y.val % 16) 0 := by decide
    exact h ⟨b, hb⟩

/-- Witness for C4: the key-expansion correspondence at the concrete key 0x4AF5
and the byte lemmas at the concrete byte 0xA7. -/
theorem SAES.keyExpansion_matches_spec_witness :
    keyExpansion 0x4AF5 = keyExpansionSpec 0x4AF5 ∧
    rotWord 0xA7 = (0xA7 % 16) * 16 + 0xA7 / 16 ∧
    subWord 0xA7 = sBox.getD (0xA7 / 16) 0 * 16 + sBox.getD (0xA7 % 16) 0 :=
  ⟨SAES.keyExpansion_matches_spec.1 0x4AF5 (by decide),
   SAES.keyExpansion_matches_spec.2.1 0xA7 (by decide),
   SAES.keyExpansion_matches_spec.2.2 0xA7 (by decide)⟩

/-- C5: GF(2^4) multiplication.  For all inputs a and b, gfMult a b equals the
product of (a mod 16) and (b mod 16) in GF(2^4) with reduction polynomial
x^4 + x + 1 (carry-less multiplication followed by reduction by 0b10011);
gfMult a 0 = 0 for every 4-bit a, gfMult is commutative on 4-bit operands, and
the result is always below 16. -/
theorem SAES.gfMult_spec_props :
    (∀ a b : Nat, gfMult a b = gfMultSpec a b) ∧
    (∀ a : Nat, a < 16 → gfMult a 0 = 0) ∧
    (∀ a b : Nat, a < 16 → b < 16 → gfMult a b = gfMult b a) ∧
    (∀ a b : Nat, gfMult a b < 16) := by
  refine ⟨fun a b => ?_, fun a ha => rfl, fun a b ha hb => ?_, fun a b => gfMult_lt a b⟩
  · have key : ∀ x y : Fin 16, gfMult x.val y.val = gfMultSpec x.val y.val := by decide
    have ha : gfMult a b = gfMult (a % 16) (b % 16) := by
      rw [gfMult_mask, and_15_eq_mod, and_15_eq_mod]
    have hs : gfMultSpec a b = gfMultSpec (a % 16) (b % 16) := by
      simp [gfMultSpec, Nat.mod_mod_of_dvd]
    rw [ha, hs]
    exact key ⟨a % 16, Nat.mod_lt _ (by omega)⟩ ⟨b % 16, Nat.mod_lt _ (by omega)⟩
  · have key : ∀ x y : Fin 16, gfMult x.val y.val = gfMult y.val x.val := by decide
    exact key ⟨a, ha⟩ ⟨b, hb⟩

/-- Witness for C5: the specification equality at 7 and 11, the zero and
commutativity properties at 7 and 11, and the range bound at 13 and 14. -/
theorem SAES.gfMult_spec_props_witness :
    gfMult 7 11 = gfMultSpec 7 11 ∧ gfMult 7 0 = 0 ∧ gfMult 7 11 = gfMult 11 7 ∧
    gfMult 13 14 < 16 :=
  ⟨SAES.gfMult_spec_props.1 7 11, SAES.gfMult_spec_props.2.1 7 (by decide),
   SAES.gfMult_spec_props.2.2.1 7 11 (by decide) (by decide),
   SAES.gfMult_spec_props.2.2.2 13 14⟩

namespace SAES

lemma gf_mix_component_inv {x y : Nat} (hx : x < 16) (hy : y < 16) :
    (gfMult 9 x ^^^ gfMult 2 y) ^^^ gfMult 4 (gfMult 9 y ^^^ gfMult 2 x) = x := by
  have h : ∀ a b : Fin 16,
      (gfMult 9 a.val ^^^ gfMult 2 b.val) ^^^
        gfMult 4 (gfMult 9 b.val ^^^ gfMult 2 a.val) = a.val := by decide
  exact h ⟨x, hx⟩ ⟨y, hy⟩

lemma mc_inv_rev {s : List Nat} (hs : Nib s) :
    mixColumns (inverseMixColumns s) = s := by
  obtain ⟨a, b, c, d, rfl⟩ := exists_four s hs.1
  have h0 : a < 16 := hs.2 0
  have h1 : b < 16 := hs.2 1
  have h2 : c < 16 := hs.2 2
  have h3 : d < 16 := hs.2 3
  show [(gfMult 9 a ^^^ gfMult 2 c) ^^^ gfMult 4 (gfMult 9 c ^^^ gfMult 2 a),
        (gfMult 9 b ^^^ gfMult 2 d) ^^^ gfMult 4 (gfMult 9 d ^^^ gfMult 2 b),
        (gfMult 9 c ^^^ gfMult 2 a) ^^^ gfMult 4 (gfMult 9 a ^^^ gfMult 2 c),
        (gfMult 9 d ^^^ gfMult 2 b) ^^^ gfMult 4 (gfMult 9 b ^^^ gfMult 2 d)] = [a, b, c, d]
  rw [gf_mix_component_inv h0 h2, gf_mix_component_inv h1 h3, gf_mix_component_inv h2 h0,
    gf_mix_component_inv h3 h1]

end SAES

/-- C6 counterexample: on the state [1, 0, 0, 0] the encryption-side mixColumns
produces [1, 0, 4, 0], and its first output nibble, 1, cannot be formed from
multiply-by-4 and multiply-by-9 of input nibbles: no xor of a multiply-by-4
term and a multiply-by-9 term, and no single such term, equals 1 on this
input.  The encryption-side constants are 1 and 4; 9 appears only in
inverseMixColumns. -/
theorem SAES.mixColumns_constants_cex :
    mixColumns [1, 0, 0, 0] = [1, 0, 4, 0] ∧
    (∀ i j : Fin 4,
      gfMult 4 ([1, 0, 0, 0].getD i.val 0) ^^^ gfMult 9 ([1, 0, 0, 0].getD j.val 0) ≠ 1) ∧
    (∀ i : Fin 4, gfMult 4 ([1, 0, 0, 0].getD i.val 0) ≠ 1) ∧
    (∀ i : Fin 4, gfMult 9 ([1, 0, 0, 0].getD i.val 0) ≠ 1) := by decide

/-- C6 (amended): the encryption-side mixColumns is GF(2^4) linear diffusion
with constants 1 and 4 (each output nibble is one input nibble xor
multiply-by-4 of another), inverseMixColumns is the multiply-by-9 and
multiply-by-2 combination, and the two layers are mutual inverses on every
4-nibble state. -/
theorem SAES.mix_layers_spec :
    (∀ a b c d : Nat, mixColumns [a, b, c, d] =
      [a ^^^ gfMult 4 c, b ^^^ gfMult 4 d, c ^^^ gfMult 4 a, d ^^^ gfMult 4 b]) ∧
    (∀ a b c d : Nat, inverseMixColumns [a, b, c, d] =
      [gfMult 9 a ^^^ gfMult 2 c, gfMult 9 b ^^^ gfMult 2 d,
       gfMult 9 c ^^^ gfMult 2 a, gfMult 9 d ^^^ gfMult 2 b]) ∧
    (∀ s : List Nat, Nib s →
      inverseMixColumns (mixColumns s) = s ∧ mixColumns (inverseMixColumns s) = s) :=
  ⟨fun a b c d => rfl, fun a b c d => rfl, fun s hs => ⟨mc_inv hs, mc_inv_rev hs⟩⟩

/-- Witness for the amended C6: the mutual-inverse property applied to the
concrete state [1, 2, 3, 4]. -/
theorem SAES.mix_layers_spec_witness :
    inverseMixColumns (mixColumns [1, 2, 3, 4]) = [1, 2, 3, 4] ∧
    mixColumns (inverseMixColumns [1, 2, 3, 4]) = [1, 2, 3, 4] :=
  SAES.mix_layers_spec.2.2 [1, 2, 3, 4]
    ⟨rfl, fun i =>
      match i with
      | 0 => by decide
      | 1 => by decide
      | 2 => by decide
      | 3 => by decide
      | n + 4 => show (0 : Nat) < 16 by decide⟩

/-- C7: Cipher A S-box addressing.  For every 4-bit input group with entries 0
or 1 and either S-box table, the lookup selects row = 2 * bit0 + bit3 and
column = 2 * bit1 + bit2 (outer bits form the row, inner bits the column), and
returns the 2-bit most-significant-bit-first encoding of the table value. -/
theorem SDES.sBox_addressing (b0 b1 b2 b3 : Nat)
    (h0 : b0 = 0 ∨ b0 = 1) (h1 : b1 = 0 ∨ b1 = 1)
    (h2 : b2 = 0 ∨ b2 = 1) (h3 : b3 = 0 ∨ b3 = 1)
    (S : List (List Nat)) (hS : S = S0 ∨ S = S1) :
    sBox [b0, b1, b2, b3] S =
      [(S.getD (2 * b0 + b3) []).getD (2 * b1 + b2) 0 / 2 % 2,
       (S.getD (2 * b0 + b3) []).getD (2 * b1 + b2) 0 % 2] := by
  rcases h0 with rfl | rfl <;> rcases h1 with rfl | rfl <;> rcases h2 with rfl | rfl <;>
    rcases h3 with rfl | rfl <;> rcases hS with rfl | rfl <;> decide

/-- Witness for C7: the addressing property at the group 1011 on table S0. -/
theorem SDES.sBox_addressing_witness :
    sBox [1, 0, 1, 1] S0 =
      [(S0.getD (2 * 1 + 1) []).getD (2 * 0 + 1) 0 / 2 % 2,
       (S0.getD (2 * 1 + 1) []).getD (2 * 0 + 1) 0 % 2] :=
  SDES.sBox_addressing 1 0 1 1 (Or.inr rfl) (Or.inl rfl) (Or.inr rfl) (Or.inr rfl)
    S0 (Or.inl rfl)

/-- C8 counterexample: on the 7-bit block 0000000 the cipher-A engine does not
fail: it still produces a full 8-bit result (out-of-range reads are modelled as
0), so no InvalidBlockWidth error exists in the engine.  The wrong-width input
is effectively padded rather than rejected. -/
theorem SDES.sdes_no_width_check_cex :
    (sdes [0, 0, 0, 0, 0, 0, 0] [0, 0, 0, 0, 0, 0, 0, 0, 0, 0] false).length = 8 := by
  decide

/-- C8 (amended): the cipher-A engine performs no width validation and always
returns a full 8-bit result whatever the input length; width checking lives in
the input parser, which returns the empty bit vector whenever the string is
not exactly the expected number of characters, and any non-empty parse has
exactly the expected width. -/
theorem SDES.width_validation_in_parser :
    (∀ (input key : List Nat) (d : Bool), (sdes input key d).length = 8) ∧
    (∀ (s : List Char) (e : Nat), s.length ≠ e → parseBits s e = []) ∧
    (∀ (s : List Char) (e : Nat), parseBits s e = [] ∨ (parseBits s e).length = e) := by
  refine ⟨fun input key d => ?_, fun s e h => ?_, fun s e => ?_⟩
  · simp [sdes, permute, IP_INV]
  · simp [parseBits, h]
  · by_cases hc : s.length = e ∧ s.all (fun c => c = '0' ∨ c = '1')
    · right
      unfold parseBits
      rw [if_pos hc]
      simp [hc.1]
    · left
      unfold parseBits
      rw [if_neg hc]

/-- Witness for C8 (amended): the parser rejects the 7-character string 0000000
when 8 bits are expected. -/
theorem SDES.width_validation_in_parser_witness :
    parseBits ['0', '0', '0', '0', '0', '0', '0'] 8 = [] :=
  SDES.width_validation_in_parser.2.1 ['0', '0', '0', '0', '0', '0', '0'] 8 (by decide)

/-- C10: Cipher B shiftRows is an involution: applying it twice to any 4-nibble
state returns the state, which is why Decrypt reuses shiftRows itself instead
of a separate inverse function. -/
theorem SAES.shiftRows_involution (s : List Nat) (hs : s.length = 4) :
    shiftRows (shiftRows s) = s := by
  obtain ⟨a, b, c, d, rfl⟩ := exists_four s hs
  rfl

/-- Witness for C10: the involution applied to the concrete state [5, 6, 7, 8]. -/
theorem SAES.shiftRows_involution_witness :
    shiftRows (shiftRows [5, 6, 7, 8]) = [5, 6, 7, 8] :=
  SAES.shiftRows_involution [5, 6, 7, 8] (by decide)

namespace DH

lemma powerAux_zero_result (fuel base exp : Nat) : powerAux fuel 0 base exp 1 = 0 := by
  induction fuel generalizing base exp with
  | zero => rfl
  | succ n ih =>
    simp only [powerAux]
    split
    · rfl
    · rw [Nat.mod_one]
      split <;> exact ih _ _

lemma powerAux_mod_one (fuel r base exp : Nat) (he : 1 ≤ exp) (hf : exp < 2 ^ fuel) :
    powerAux fuel r base exp 1 = 0 := by
  induction fuel generalizing r base exp with
  | zero => omega
  | succ n ih =>
    simp only [powerAux]
    split
    · omega
    · rcases Nat.lt_or_ge (exp / 2) 1 with h2 | h2
      · have hx : exp / 2 = 0 := by omega
        split
        · rw [Nat.mod_one, hx]
          exact powerAux_zero_result _ _ _
        · have : exp % 2 = 0 := by omega
          omega
      · have hlt : exp / 2 < 2 ^ n := by
          rw [pow_succ] at hf
          omega
        split
        · rw [Nat.mod_one]
          exact powerAux_zero_result _ _ _
        · exact ih _ _ _ h2 hlt

lemma powerAux_correct (fuel r base exp m : Nat) (hm : 1 ≤ m) (hr : r < m) (hb : base < m)
    (hf : exp < 2 ^ fuel) :
    powerAux fuel r base exp m = (r * base ^ exp) % m := by
  induction fuel generalizing r base exp with
  | zero =>
    have : exp = 0 := by omega
    subst this
    simp [powerAux, Nat.mod_eq_of_lt hr]
  | succ n ih =>
    simp only [powerAux]
    split
    · subst ‹exp = 0›
      simp [Nat.mod_eq_of_lt hr]
    · have hexp : 1 ≤ exp := by omega
      have hlt : exp / 2 < 2 ^ n := by
        rw [pow_succ] at hf
        omega
      have hb2 : base * base % m < m := Nat.mod_lt _ (by omega)
      have hmodb : (base * base % m : Nat) ^ (exp / 2) ≡ (base * base) ^ (exp / 2) [MOD m] :=
        (Nat.mod_modEq _ _).pow _
      split
      · have hodd : exp % 2 = 1 := ‹exp % 2 = 1›
        have hr2 : r * base % m < m := Nat.mod_lt _ (by omega)
        rw [ih _ _ _ hr2 hb2 hlt]
        have step : (r * base % m) * (base * base % m) ^ (exp / 2) ≡
            r * base ^ exp [MOD m] := by
          calc (r * base % m) * (base * base % m) ^ (exp / 2)
              ≡ (r * base) * (base * base) ^ (exp / 2) [MOD m] :=
                (Nat.mod_modEq _ _).mul hmodb
            _ = r * base ^ exp := by
                conv_rhs => rw [show exp = 2 * (exp / 2) + 1 by omega]
                ring
        exact step
      · rw [ih _ _ _ hr hb2 hlt]
        have step : r * (base * base % m) ^ (exp / 2) ≡ r * base ^ exp [MOD m] := by
          calc r * (base * base % m) ^ (exp / 2)
              ≡ r * (base * base) ^ (exp / 2) [MOD m] := (Nat.ModEq.refl r).mul hmodb
            _ = r * base ^ exp := by
                conv_rhs => rw [show exp = 2 * (exp / 2) by omega]
                ring
        exact step

end DH

/-- C9 counterexample: at base 5, exponent 0 and modulus 1 the loop is never
entered and power returns its initial accumulator 1, whereas exact modular
exponentiation gives 5^0 mod 1 = 0, so the claim fails for modulus 1 with
exponent 0. -/
theorem DH.power_mod_one_cex : power 5 0 1 = 1 ∧ 5 ^ 0 % 1 = 0 := by decide

/-- C9 (amended): the square-and-multiply primitive computes exact modular
exponentiation, power base exp modulus = base ^ exp mod modulus, for every
base, every exponent and every modulus at least 1, except in the single corner
case modulus = 1 with exponent = 0, where it returns 1 instead of 0. -/
theorem DH.power_correct (base exp m : Nat) (hm : 1 ≤ m) (hne : ¬(m = 1 ∧ exp = 0)) :
    power base exp m = base ^ exp % m := by
  rcases Nat.lt_or_ge m 2 with h2 | h2
  · have hm1 : m = 1 := by omega
    subst hm1
    have he : 1 ≤ exp := by omega
    rw [Nat.mod_one]
    exact powerAux_mod_one _ _ _ _ he (Nat.lt_two_pow _)
  · rw [power, powerAux_correct _ _ _ _ _ (by omega) h2 (Nat.mod_lt _ (by omega))
        (Nat.lt_two_pow _)]
    rw [one_mul, ← Nat.pow_mod]

/-- Witness for C9 (amended): the theorem applied at base 9, exponent 4 and
modulus 23 (the Diffie-Hellman demo's public parameters). -/
theorem DH.power_correct_witness : power 9 4 23 = 9 ^ 4 % 23 :=
  DH.power_correct 9 4 23 (by decide) (by decide)
